import Mathlib

/-!
# Verification of the quote-cache / rate-limiter subsystem of `app.py`

Shallow embedding of `HistoricalQuoteCache` and `RateLimiter` from `src/app.py`.

Modelling conventions:
* Wall-clock time and float durations are modelled as `ℚ`.  Every operation
  takes the current time `now` as an explicit parameter; the several
  `time.time()` calls inside one operation are idealised to return the same
  instant, and `time.sleep(d)` advances the clock by exactly `d`.
* Python values stored in the cache are `PyVal := Option ℤ` — `none` models
  Python `None`, which is also what `get` returns on a miss.
* The `psutil` memory sample taken by `_check_memory_usage` is supplied as a
  parameter `mem : Option ℚ` holding the system memory percentage;
  `none` models the sampling calls raising an exception.  The code has no
  `try/except` around them, so the exception propagates: fallible operations
  return `Except Unit` results paired with the state reached (the object keeps
  the mutations performed before the raise).
* `OrderedDict` is modelled as a list of entries, front = oldest
  (least-recently-used), back = most-recently-used.  Assignment to an existing
  key updates the entry in place (it does not move it), exactly like
  `OrderedDict.__setitem__`; `move_to_end` removes and re-appends;
  `popitem(last=False)` removes the front and raises `KeyError` on an empty
  dict.  `int(n * 0.7)` in `_reduce_cache_size` is idealised to exact
  arithmetic `7 * n / 10` (floor).
* `float` rate-limiter timestamps live in a `deque`; `popleft` prunes the
  front, `append` pushes at the back, `requests[0]` raises `IndexError` on an
  empty deque.
-/

/-- Cache keys (opaque identifiers; the source uses strings such as
`"NSE:X-EQ_1"`, treated as opaque by the cache, so they are modelled as
natural numbers). -/
abbrev Key := Nat

/-- A Python value stored in the cache: `none` is Python `None`. -/
abbrev PyVal := Option ℤ

/-- One `OrderedDict` slot: key, stored value, timestamp of last write. -/
abbrev Entry := Key × PyVal × ℚ

/-- The keys of a cache listing, in order. -/
def keysOf (c : List Entry) : List Key :=
  c.map (fun e => e.1)

/-- `self.cache[key]` read: the stored `(value, timestamp)` pair, if present. -/
def lookupEntry (k : Key) : List Entry → Option (PyVal × ℚ)
  | [] => none
  | e :: es => if e.1 = k then some e.2 else lookupEntry k es

/-- `del self.cache[key]`: remove the entry (first occurrence). -/
def eraseKey (k : Key) : List Entry → List Entry
  | [] => []
  | e :: es => if e.1 = k then es else e :: eraseKey k es

/-- `self.cache[key] = (value, ts)` on an `OrderedDict`: update in place when
the key is present (position preserved), otherwise append at the
most-recently-used end. -/
def dictAssign (k : Key) (v : PyVal) (ts : ℚ) : List Entry → List Entry
  | [] => [(k, v, ts)]
  | e :: es => if e.1 = k then (k, v, ts) :: es else e :: dictAssign k v ts es

/-- `self.cache.move_to_end(key)`: move the entry for `key` to the
most-recently-used end, keeping its stored value and timestamp. -/
def moveToEnd (k : Key) (c : List Entry) : List Entry :=
  match lookupEntry k c with
  | some p => eraseKey k c ++ [(k, p.1, p.2)]
  | none => c

/-- State of a `HistoricalQuoteCache` instance (`app.py`, lines 60–188). -/
structure HistoricalQuoteCache where
  maxsize : Int
  ttl_seconds : ℚ
  cache : List Entry
  last_cleanup : ℚ
  cleanup_interval : ℚ
  hits : Nat
  misses : Nat
  last_memory_check : ℚ
  memory_check_interval : ℚ
  memory_warning_threshold : ℚ
  deriving DecidableEq

/-- The attribute initialisation performed by `__init__` at construction time
`t0` (`last_cleanup` and `last_memory_check` are set to `time.time()`). -/
def HistoricalQuoteCache.mkState (maxsize : Int) (ttl_seconds : ℚ) (t0 : ℚ) :
    HistoricalQuoteCache :=
  { maxsize := maxsize
    ttl_seconds := ttl_seconds
    cache := []
    last_cleanup := t0
    cleanup_interval := 300
    hits := 0
    misses := 0
    last_memory_check := t0
    memory_check_interval := 60
    memory_warning_threshold := 4/5 }

/-- `HistoricalQuoteCache.__init__`.  The source performs no validation of
`maxsize` or `ttl_seconds` and has no failure path; the `Except` wrapper makes
"construction refuses to initialize" expressible, and this constructor always
returns `.ok`. -/
def HistoricalQuoteCache.init (maxsize : Int) (ttl_seconds : ℚ) (t0 : ℚ) :
    Except Unit HistoricalQuoteCache :=
  .ok (HistoricalQuoteCache.mkState maxsize ttl_seconds t0)

/-- `_reduce_cache_size`: pop least-recently-used entries until the size drops
to `int(current_size * 0.7)`. -/
def reduceCacheSize (c : List Entry) : List Entry :=
  let target := 7 * c.length / 10
  c.drop (c.length - target)

/-- `_cleanup_expired`: at most once per `cleanup_interval`, drop every entry
whose age exceeds `ttl_seconds` (keys are collected with
`now - timestamp > ttl_seconds` and deleted). -/
def cleanupExpired (now : ℚ) (s : HistoricalQuoteCache) : HistoricalQuoteCache :=
  if now - s.last_cleanup < s.cleanup_interval then s
  else
    { s with
      cache := s.cache.filter (fun e => decide (now - e.2.2 ≤ s.ttl_seconds))
      last_cleanup := now }

/-- `_check_memory_usage`: at most once per `memory_check_interval`, sample
memory via `psutil` (parameter `mem`; `none` = the sampling raised, and the
exception propagates since there is no `try/except`); if the sampled
percentage exceeds `memory_warning_threshold * 100`, shrink the cache. -/
def checkMemoryUsage (now : ℚ) (mem : Option ℚ) (s : HistoricalQuoteCache) :
    Except Unit HistoricalQuoteCache :=
  if now - s.last_memory_check < s.memory_check_interval then .ok s
  else
    match mem with
    | none => .error ()
    | some pct =>
      if s.memory_warning_threshold * 100 < pct then
        .ok { s with cache := reduceCacheSize s.cache, last_memory_check := now }
      else .ok { s with last_memory_check := now }

/-- The `with self.lock:` section of `get` (lines 156–167): return the stored
value if present and not expired (promoting it to most-recently-used and
counting a hit); delete an expired entry; count a miss and return `None`. -/
def getLocked (now : ℚ) (k : Key) (s2 : HistoricalQuoteCache) :
    Except Unit PyVal × HistoricalQuoteCache :=
  match lookupEntry k s2.cache with
  | some p =>
    if now - p.2 ≤ s2.ttl_seconds then
      (.ok p.1, { s2 with cache := moveToEnd k s2.cache, hits := s2.hits + 1 })
    else
      (.ok none, { s2 with cache := eraseKey k s2.cache, misses := s2.misses + 1 })
  | none => (.ok none, { s2 with misses := s2.misses + 1 })

/-- `HistoricalQuoteCache.get` (lines 151–167): run the lazy sweep and the
memory check, then execute the locked section.  The returned state is the one
reached even when the memory check raises. -/
def HistoricalQuoteCache.get (now : ℚ) (mem : Option ℚ) (k : Key)
    (s : HistoricalQuoteCache) : Except Unit PyVal × HistoricalQuoteCache :=
  match checkMemoryUsage now mem (cleanupExpired now s) with
  | .error e => (.error e, cleanupExpired now s)
  | .ok s2 => getLocked now k s2

/-- The `with self.lock:` section of `set` (lines 174–180): if
`len(self.cache) >= self.maxsize`, `popitem(last=False)` (raising `KeyError`
on an empty dict), then assign `(value, time.time())` to `key`. -/
def setLocked (now : ℚ) (k : Key) (v : PyVal) (s2 : HistoricalQuoteCache) :
    Except Unit Unit × HistoricalQuoteCache :=
  if s2.maxsize ≤ (s2.cache.length : Int) then
    match s2.cache with
    | [] => (.error (), s2)
    | _ :: rest => (.ok (), { s2 with cache := dictAssign k v now rest })
  else (.ok (), { s2 with cache := dictAssign k v now s2.cache })

/-- `HistoricalQuoteCache.set` (lines 169–180): run the lazy sweep and the
memory check, then execute the locked section. -/
def HistoricalQuoteCache.set (now : ℚ) (mem : Option ℚ) (k : Key) (v : PyVal)
    (s : HistoricalQuoteCache) : Except Unit Unit × HistoricalQuoteCache :=
  match checkMemoryUsage now mem (cleanupExpired now s) with
  | .error e => (.error e, cleanupExpired now s)
  | .ok s2 => setLocked now k v s2

/-- `HistoricalQuoteCache.clear` (lines 182–188). -/
def HistoricalQuoteCache.clear (s : HistoricalQuoteCache) : HistoricalQuoteCache :=
  { s with cache := [], hits := 0, misses := 0 }

/-- One cache operation together with the instant it happens at and the memory
sample its memory check would observe. -/
inductive CacheOp where
  | opGet (now : ℚ) (mem : Option ℚ) (k : Key)
  | opSet (now : ℚ) (mem : Option ℚ) (k : Key) (v : PyVal)
  | opClear
  deriving DecidableEq

/-- The state after an operation completes (or aborts with an exception). -/
def applyOp (op : CacheOp) (s : HistoricalQuoteCache) : HistoricalQuoteCache :=
  match op with
  | .opGet now mem k => (HistoricalQuoteCache.get now mem k s).2
  | .opSet now mem k v => (HistoricalQuoteCache.set now mem k v s).2
  | .opClear => s.clear

/-- Run a sequence of cache operations. -/
def runOps (s : HistoricalQuoteCache) : List CacheOp → HistoricalQuoteCache
  | [] => s
  | op :: ops => runOps (applyOp op s) ops

/-- The memory check at `now` with sample `mem` neither raises nor shrinks:
either it is not due yet, or the sample succeeds below the warning
threshold. -/
def memBenignB (now : ℚ) (mem : Option ℚ) (s : HistoricalQuoteCache) : Bool :=
  decide (now - s.last_memory_check < s.memory_check_interval) ||
    match mem with
    | some pct => decide (pct ≤ s.memory_warning_threshold * 100)
    | none => false

/-- Neither the expiry sweep nor the memory check is due at `now`. -/
def quiescentB (now : ℚ) (s : HistoricalQuoteCache) : Bool :=
  decide (now - s.last_cleanup < s.cleanup_interval) &&
    decide (now - s.last_memory_check < s.memory_check_interval)

/-- State of a `RateLimiter` instance (`app.py`, lines 322–361):
`requests` is the deque of admitted-call timestamps, oldest first. -/
structure RateLimiter where
  max_requests : Int
  time_window : ℚ
  requests : List ℚ
  min_delay : ℚ
  deriving DecidableEq

/-- `RateLimiter.__init__`: stores the arguments unchecked and hard-codes
`min_delay = 0.2`. -/
def RateLimiter.mkState (max_requests : Int) (time_window : ℚ) : RateLimiter :=
  { max_requests := max_requests
    time_window := time_window
    requests := []
    min_delay := 1/5 }

/-- `RateLimiter.__init__` wrapped like `HistoricalQuoteCache.init`: the
source performs no validation and always succeeds. -/
def RateLimiter.init (max_requests : Int) (time_window : ℚ) :
    Except Unit RateLimiter :=
  .ok (RateLimiter.mkState max_requests time_window)

/-- The pruning loop of `wait_if_needed`:
`while self.requests and now - self.requests[0] > self.time_window: popleft`. -/
def pruneOld (now tw : ℚ) : List ℚ → List ℚ
  | [] => []
  | r :: rs => if tw < now - r then pruneOld now tw rs else r :: rs

/-- The tail of `wait_if_needed` (lines 353–361): the minimum-delay sleep
(computed from the stale `now` read at entry, guarded by `if self.requests:`)
followed by `self.requests.append(time.time())`.  `sleep1` is the sliding
window sleep already performed; the appended timestamp is `now` plus the two
sequential sleeps.  Returns the updated limiter and the appended timestamp. -/
def rlAppend (now : ℚ) (rl : RateLimiter) (reqs : List ℚ) (sleep1 : ℚ) :
    RateLimiter × ℚ :=
  let sleep2 :=
    match reqs.getLast? with
    | none => 0
    | some last => if now - last < rl.min_delay then rl.min_delay - (now - last) else 0
  let t := now + sleep1 + sleep2
  ({ rl with requests := reqs ++ [t] }, t)

/-- `RateLimiter.wait_if_needed` (lines 336–361), entered at wall-clock time
`now`: prune timestamps older than the window, sleep until the oldest
remaining request exits the window when the pruned count is still at or above
`max_requests` (the sleep is skipped when the computed time is not positive),
then apply the minimum-delay sleep and append.  Returns `none` when
`self.requests[0]` raises `IndexError` (empty deque with
`max_requests <= 0`). -/
def RateLimiter.wait_if_needed (now : ℚ) (rl : RateLimiter) :
    Option (RateLimiter × ℚ) :=
  let reqs := pruneOld now rl.time_window rl.requests
  if rl.max_requests ≤ (reqs.length : Int) then
    match reqs with
    | [] => none
    | r0 :: rs =>
      some (rlAppend now rl (r0 :: rs)
        (if 0 < r0 + rl.time_window - now then r0 + rl.time_window - now else 0))
  else some (rlAppend now rl reqs 0)

/-- Run `acquire()` once per entry time in `entries`, threading the limiter
state and collecting the log of admitted timestamps. -/
def runRL (rl : RateLimiter) (log : List ℚ) : List ℚ → Option (RateLimiter × List ℚ)
  | [] => some (rl, log)
  | t :: ts =>
    match rl.wait_if_needed t with
    | none => none
    | some (rl', T) => runRL rl' (log ++ [T]) ts

/-- `n` back-to-back `acquire()` calls on a single thread: each call is
entered at the instant the previous one returned (its admission timestamp). -/
def backToBack (t : ℚ) (rl : RateLimiter) (log : List ℚ) :
    Nat → Option (RateLimiter × List ℚ)
  | 0 => some (rl, log)
  | n + 1 =>
    match rl.wait_if_needed t with
    | none => none
    | some (rl', T) => backToBack T rl' (log ++ [T]) n

/-- Number of timestamps of `log` lying within the trailing window of length
`w` at observation instant `t` (age between `0` and `w`, the code's own
convention for "inside the window"). -/
def windowCount (log : List ℚ) (w t : ℚ) : Nat :=
  (log.filter (fun r => decide (0 ≤ t - r) && decide (t - r ≤ w))).length

/-- `entries` is a realizable single-threaded call schedule for a run that
produced `log`: every call after the first is entered no earlier than the
instant the previous call returned. -/
def admissibleB (entries log : List ℚ) : Bool :=
  (entries.tail.zip log).all (fun p => decide (p.2 ≤ p.1))

/-- Consecutive elements of `log` are at least `d` apart. -/
def spacedBy (d : ℚ) (log : List ℚ) : Prop :=
  log.Chain' (fun a b => d ≤ b - a)

/-! ## Basic lemmas about the `OrderedDict` model -/

theorem keysOf_nil : keysOf [] = [] := rfl

theorem keysOf_cons (e : Entry) (es : List Entry) :
    keysOf (e :: es) = e.1 :: keysOf es := rfl

theorem keysOf_append (c d : List Entry) :
    keysOf (c ++ d) = keysOf c ++ keysOf d := by
  simp [keysOf]

theorem lookupEntry_eq_none_of_not_mem {k : Key} {c : List Entry}
    (h : k ∉ keysOf c) : lookupEntry k c = none := by
  induction c with
  | nil => rfl
  | cons e es ih =>
    rw [keysOf_cons, List.mem_cons, not_or] at h
    have he : ¬ e.1 = k := fun hh => h.1 hh.symm
    rw [lookupEntry, if_neg he]
    exact ih h.2

theorem mem_keysOf_of_lookup {k : Key} {c : List Entry} {p : PyVal × ℚ}
    (h : lookupEntry k c = some p) : k ∈ keysOf c := by
  induction c with
  | nil => simp [lookupEntry] at h
  | cons e es ih =>
    rw [lookupEntry] at h
    rw [keysOf_cons, List.mem_cons]
    by_cases he : e.1 = k
    · exact Or.inl he.symm
    · rw [if_neg he] at h
      exact Or.inr (ih h)

theorem lookupEntry_dictAssign_self (k : Key) (v : PyVal) (ts : ℚ) (c : List Entry) :
    lookupEntry k (dictAssign k v ts c) = some (v, ts) := by
  induction c with
  | nil => simp [dictAssign, lookupEntry]
  | cons e es ih =>
    by_cases he : e.1 = k
    · simp [dictAssign, he, lookupEntry]
    · simp only [dictAssign, if_neg he]
      rw [lookupEntry, if_neg he]
      exact ih

theorem mem_dictAssign_of_ne {e : Entry} {c : List Entry} (k : Key) (v : PyVal) (ts : ℚ)
    (hmem : e ∈ c) (hne : e.1 ≠ k) : e ∈ dictAssign k v ts c := by
  induction c with
  | nil => simp at hmem
  | cons f fs ih =>
    rcases List.mem_cons.1 hmem with rfl | h
    · by_cases hf : e.1 = k
      · exact absurd hf hne
      · simp [dictAssign, hf]
    · by_cases hf : f.1 = k
      · simp only [dictAssign, if_pos hf]
        exact List.mem_cons_of_mem _ h
      · simp only [dictAssign, if_neg hf]
        exact List.mem_cons_of_mem _ (ih h)

theorem dictAssign_of_not_mem {k : Key} {c : List Entry} (v : PyVal) (ts : ℚ)
    (h : k ∉ keysOf c) : dictAssign k v ts c = c ++ [(k, v, ts)] := by
  induction c with
  | nil => rfl
  | cons e es ih =>
    rw [keysOf_cons, List.mem_cons, not_or] at h
    have he : ¬ e.1 = k := fun hh => h.1 hh.symm
    rw [dictAssign, if_neg he, ih h.2, List.cons_append]

theorem keysOf_dictAssign_of_mem {k : Key} {c : List Entry} (v : PyVal) (ts : ℚ)
    (h : k ∈ keysOf c) : keysOf (dictAssign k v ts c) = keysOf c := by
  induction c with
  | nil => simp [keysOf_nil] at h
  | cons e es ih =>
    by_cases he : e.1 = k
    · rw [dictAssign, if_pos he, keysOf_cons, keysOf_cons, he]
    · rw [keysOf_cons, List.mem_cons] at h
      rcases h with h | h
      · exact absurd h.symm he
      · rw [dictAssign, if_neg he, keysOf_cons, keysOf_cons, ih h]

theorem keysOf_dictAssign_of_not_mem {k : Key} {c : List Entry} (v : PyVal) (ts : ℚ)
    (h : k ∉ keysOf c) : keysOf (dictAssign k v ts c) = keysOf c ++ [k] := by
  rw [dictAssign_of_not_mem v ts h, keysOf_append]
  rfl

theorem getLast?_dictAssign_of_not_mem {k : Key} {c : List Entry} (v : PyVal) (ts : ℚ)
    (h : k ∉ keysOf c) : (dictAssign k v ts c).getLast? = some (k, v, ts) := by
  rw [dictAssign_of_not_mem v ts h, List.getLast?_concat]

theorem nodup_keysOf_dictAssign {k : Key} {c : List Entry} (v : PyVal) (ts : ℚ)
    (h : (keysOf c).Nodup) : (keysOf (dictAssign k v ts c)).Nodup := by
  by_cases hk : k ∈ keysOf c
  · rwa [keysOf_dictAssign_of_mem v ts hk]
  · rw [keysOf_dictAssign_of_not_mem v ts hk]
    exact List.Nodup.append h (List.nodup_singleton k)
      (List.disjoint_singleton.2 hk)

theorem eraseKey_sublist (k : Key) (c : List Entry) :
    List.Sublist (eraseKey k c) c := by
  induction c with
  | nil => exact List.Sublist.refl []
  | cons e es ih =>
    by_cases he : e.1 = k
    · rw [eraseKey, if_pos he]
      exact List.sublist_cons_self e es
    · rw [eraseKey, if_neg he]
      exact List.Sublist.cons₂ e ih

theorem length_eraseKey_of_lookup {k : Key} {c : List Entry} {p : PyVal × ℚ}
    (h : lookupEntry k c = some p) : (eraseKey k c).length + 1 = c.length := by
  induction c with
  | nil => simp [lookupEntry] at h
  | cons e es ih =>
    by_cases he : e.1 = k
    · rw [eraseKey, if_pos he, List.length_cons]
    · rw [lookupEntry, if_neg he] at h
      rw [eraseKey, if_neg he, List.length_cons, List.length_cons, ih h]

theorem length_moveToEnd (k : Key) (c : List Entry) :
    (moveToEnd k c).length = c.length := by
  unfold moveToEnd
  cases hl : lookupEntry k c with
  | none => rfl
  | some p =>
    rw [List.length_append, List.length_singleton, length_eraseKey_of_lookup hl]

theorem mem_keysOf_of_mem_keysOf_filter {k : Key} {c : List Entry} {p : Entry → Bool}
    (h : k ∈ keysOf (c.filter p)) : k ∈ keysOf c := by
  simp only [keysOf, List.mem_map] at h ⊢
  obtain ⟨e, he, rfl⟩ := h
  exact ⟨e, List.mem_of_mem_filter he, rfl⟩

theorem lookupEntry_filter {k : Key} {c : List Entry} (p : Entry → Bool)
    (hnd : (keysOf c).Nodup) :
    lookupEntry k (c.filter p) =
      (lookupEntry k c).bind (fun q => if p (k, q.1, q.2) then some q else none) := by
  induction c with
  | nil => rfl
  | cons e es ih =>
    rw [keysOf_cons, List.nodup_cons] at hnd
    by_cases he : e.1 = k
    · have hek : e = (k, e.2.1, e.2.2) := by
        rw [← he]
      have hkes : k ∉ keysOf es := by rw [← he]; exact hnd.1
      cases hp : p e with
      | true =>
        rw [List.filter_cons_of_pos hp, lookupEntry, if_pos he, lookupEntry, if_pos he]
        rw [hek] at hp
        simp [hp]
      | false =>
        rw [List.filter_cons_of_neg (by simp [hp]), lookupEntry, if_pos he]
        rw [lookupEntry_eq_none_of_not_mem
          (fun hm => hkes (mem_keysOf_of_mem_keysOf_filter hm))]
        rw [hek] at hp
        simp [hp]
    · have step : lookupEntry k (List.filter p (e :: es)) = lookupEntry k (List.filter p es) := by
        cases hp : p e with
        | true => rw [List.filter_cons_of_pos hp, lookupEntry, if_neg he]
        | false => rw [List.filter_cons_of_neg (by simp [hp])]
      rw [step, lookupEntry, if_neg he, ih hnd.2]

theorem nodup_keysOf_sublist {c c' : List Entry} (h : List.Sublist c' c)
    (hnd : (keysOf c).Nodup) : (keysOf c').Nodup :=
  List.Nodup.sublist (List.Sublist.map _ h) hnd

theorem nodup_keysOf_filter {c : List Entry} (p : Entry → Bool)
    (hnd : (keysOf c).Nodup) : (keysOf (c.filter p)).Nodup :=
  nodup_keysOf_sublist (List.filter_sublist c) hnd

/-! ## Lemmas about the sweep, the memory check and the locked sections -/

theorem cleanupExpired_eq (now : ℚ) (s : HistoricalQuoteCache) :
    cleanupExpired now s = s ∨
    cleanupExpired now s =
      { s with
        cache := s.cache.filter (fun e => decide (now - e.2.2 ≤ s.ttl_seconds))
        last_cleanup := now } := by
  unfold cleanupExpired
  split
  · exact Or.inl rfl
  · exact Or.inr rfl

theorem cleanupExpired_quiescent {now : ℚ} {s : HistoricalQuoteCache}
    (h : now - s.last_cleanup < s.cleanup_interval) : cleanupExpired now s = s := by
  unfold cleanupExpired
  rw [if_pos h]

theorem checkMemoryUsage_quiescent {now : ℚ} {s : HistoricalQuoteCache} (mem : Option ℚ)
    (h : now - s.last_memory_check < s.memory_check_interval) :
    checkMemoryUsage now mem s = .ok s := by
  unfold checkMemoryUsage
  rw [if_pos h]

theorem quiescentB_iff {now : ℚ} {s : HistoricalQuoteCache} :
    quiescentB now s = true ↔
      now - s.last_cleanup < s.cleanup_interval ∧
        now - s.last_memory_check < s.memory_check_interval := by
  simp [quiescentB]

theorem memBenignB_cleanupExpired (now now' : ℚ) (mem : Option ℚ)
    (s : HistoricalQuoteCache) :
    memBenignB now mem (cleanupExpired now' s) = memBenignB now mem s := by
  rcases cleanupExpired_eq now' s with h | h
  · rw [h]
  · rw [h]
    rfl

theorem checkMemoryUsage_benign {now : ℚ} {mem : Option ℚ} {s : HistoricalQuoteCache}
    (h : memBenignB now mem s = true) :
    ∃ s', checkMemoryUsage now mem s = .ok s' ∧
      s'.cache = s.cache ∧ s'.maxsize = s.maxsize ∧ s'.ttl_seconds = s.ttl_seconds ∧
      s'.hits = s.hits ∧ s'.misses = s.misses ∧
      s'.last_cleanup = s.last_cleanup ∧ s'.cleanup_interval = s.cleanup_interval := by
  unfold checkMemoryUsage
  by_cases hdue : now - s.last_memory_check < s.memory_check_interval
  · rw [if_pos hdue]
    exact ⟨s, rfl, rfl, rfl, rfl, rfl, rfl, rfl, rfl⟩
  · rw [if_neg hdue]
    unfold memBenignB at h
    rw [Bool.or_eq_true, decide_eq_true_iff] at h
    cases mem with
    | none =>
      rcases h with h | h
      · exact absurd h hdue
      · simp at h
    | some pct =>
      rcases h with h | h
      · exact absurd h hdue
      · rw [decide_eq_true_iff] at h
        have hlt : ¬ s.memory_warning_threshold * 100 < pct := not_lt.2 h
        refine ⟨{ s with last_memory_check := now }, ?_, rfl, rfl, rfl, rfl, rfl, rfl, rfl⟩
        simp only [if_neg hlt]

theorem get_quiescent {now : ℚ} {s : HistoricalQuoteCache} (mem : Option ℚ) (k : Key)
    (hq : quiescentB now s = true) :
    HistoricalQuoteCache.get now mem k s = getLocked now k s := by
  obtain ⟨h1, h2⟩ := quiescentB_iff.1 hq
  unfold HistoricalQuoteCache.get
  rw [cleanupExpired_quiescent h1, checkMemoryUsage_quiescent mem h2]

theorem set_quiescent {now : ℚ} {s : HistoricalQuoteCache} (mem : Option ℚ) (k : Key)
    (v : PyVal) (hq : quiescentB now s = true) :
    HistoricalQuoteCache.set now mem k v s = setLocked now k v s := by
  obtain ⟨h1, h2⟩ := quiescentB_iff.1 hq
  unfold HistoricalQuoteCache.set
  rw [cleanupExpired_quiescent h1, checkMemoryUsage_quiescent mem h2]

theorem get_eq_of_check_ok {now : ℚ} {mem : Option ℚ} {s s2 : HistoricalQuoteCache}
    (k : Key) (hck : checkMemoryUsage now mem (cleanupExpired now s) = .ok s2) :
    HistoricalQuoteCache.get now mem k s = getLocked now k s2 := by
  unfold HistoricalQuoteCache.get
  rw [hck]

theorem get_eq_of_check_error {now : ℚ} {mem : Option ℚ} {s : HistoricalQuoteCache}
    {e : Unit} (k : Key)
    (hck : checkMemoryUsage now mem (cleanupExpired now s) = .error e) :
    HistoricalQuoteCache.get now mem k s = (.error e, cleanupExpired now s) := by
  unfold HistoricalQuoteCache.get
  rw [hck]

theorem set_eq_of_check_ok {now : ℚ} {mem : Option ℚ} {s s2 : HistoricalQuoteCache}
    (k : Key) (v : PyVal)
    (hck : checkMemoryUsage now mem (cleanupExpired now s) = .ok s2) :
    HistoricalQuoteCache.set now mem k v s = setLocked now k v s2 := by
  unfold HistoricalQuoteCache.set
  rw [hck]

theorem set_eq_of_check_error {now : ℚ} {mem : Option ℚ} {s : HistoricalQuoteCache}
    {e : Unit} (k : Key) (v : PyVal)
    (hck : checkMemoryUsage now mem (cleanupExpired now s) = .error e) :
    HistoricalQuoteCache.set now mem k v s = (.error e, cleanupExpired now s) := by
  unfold HistoricalQuoteCache.set
  rw [hck]

theorem cleanupExpired_ttl (now : ℚ) (s : HistoricalQuoteCache) :
    (cleanupExpired now s).ttl_seconds = s.ttl_seconds := by
  rcases cleanupExpired_eq now s with h | h <;> rw [h]

theorem cleanupExpired_maxsize (now : ℚ) (s : HistoricalQuoteCache) :
    (cleanupExpired now s).maxsize = s.maxsize := by
  rcases cleanupExpired_eq now s with h | h <;> rw [h]

theorem cleanupExpired_cache_cases (now : ℚ) (s : HistoricalQuoteCache) :
    (cleanupExpired now s).cache = s.cache ∨
    (cleanupExpired now s).cache =
      s.cache.filter (fun e => decide (now - e.2.2 ≤ s.ttl_seconds)) := by
  rcases cleanupExpired_eq now s with h | h
  · exact Or.inl (by rw [h])
  · exact Or.inr (by rw [h])

theorem nodup_cleanupExpired {s : HistoricalQuoteCache} (now : ℚ)
    (hnd : (keysOf s.cache).Nodup) :
    (keysOf (cleanupExpired now s).cache).Nodup := by
  rcases cleanupExpired_cache_cases now s with h | h <;> rw [h]
  · exact hnd
  · exact nodup_keysOf_filter _ hnd

theorem setLocked_lookup {k : Key} {v : PyVal} {now : ℚ} {s2 : HistoricalQuoteCache}
    (hnd : (keysOf s2.cache).Nodup) (hmax : 1 ≤ s2.maxsize) :
    lookupEntry k (setLocked now k v s2).2.cache = some (v, now) ∧
    (keysOf (setLocked now k v s2).2.cache).Nodup ∧
    (setLocked now k v s2).2.ttl_seconds = s2.ttl_seconds ∧
    (setLocked now k v s2).2.maxsize = s2.maxsize := by
  unfold setLocked
  by_cases hc : s2.maxsize ≤ (s2.cache.length : Int)
  · rw [if_pos hc]
    cases hcc : s2.cache with
    | nil =>
      exfalso
      rw [hcc] at hc
      simp at hc
      omega
    | cons e rest =>
      have hndr : (keysOf rest).Nodup := by
        rw [hcc, keysOf_cons, List.nodup_cons] at hnd
        exact hnd.2
      exact ⟨lookupEntry_dictAssign_self k v now rest,
        nodup_keysOf_dictAssign v now hndr, rfl, rfl⟩
  · rw [if_neg hc]
    exact ⟨lookupEntry_dictAssign_self k v now s2.cache,
      nodup_keysOf_dictAssign v now hnd, rfl, rfl⟩

theorem set_benign_lookup {T : ℚ} {mem : Option ℚ} {k : Key} {v : PyVal}
    {s : HistoricalQuoteCache}
    (hnd : (keysOf s.cache).Nodup) (hmax : 1 ≤ s.maxsize)
    (hb : memBenignB T mem s = true) :
    lookupEntry k (HistoricalQuoteCache.set T mem k v s).2.cache = some (v, T) ∧
    (keysOf (HistoricalQuoteCache.set T mem k v s).2.cache).Nodup ∧
    (HistoricalQuoteCache.set T mem k v s).2.ttl_seconds = s.ttl_seconds := by
  have hb1 : memBenignB T mem (cleanupExpired T s) = true := by
    rw [memBenignB_cleanupExpired]
    exact hb
  obtain ⟨s2, hck, hcache, hmax2, httl2, -, -, -, -⟩ := checkMemoryUsage_benign hb1
  have hnd2 : (keysOf s2.cache).Nodup := by
    rw [hcache]
    exact nodup_cleanupExpired T hnd
  have hmax2' : 1 ≤ s2.maxsize := by
    rw [hmax2, cleanupExpired_maxsize]
    exact hmax
  obtain ⟨h1, h2, h3, -⟩ := @setLocked_lookup k v T s2 hnd2 hmax2'
  rw [set_eq_of_check_ok k v hck]
  exact ⟨h1, h2, by rw [h3, httl2, cleanupExpired_ttl]⟩

theorem get_benign_of_lookup {now : ℚ} {mem : Option ℚ} {k : Key} {v : PyVal} {ts : ℚ}
    {s : HistoricalQuoteCache}
    (hnd : (keysOf s.cache).Nodup)
    (hb : memBenignB now mem s = true)
    (hl : lookupEntry k s.cache = some (v, ts)) :
    (HistoricalQuoteCache.get now mem k s).1 =
      if now - ts ≤ s.ttl_seconds then .ok v else .ok none := by
  have hb1 : memBenignB now mem (cleanupExpired now s) = true := by
    rw [memBenignB_cleanupExpired]
    exact hb
  obtain ⟨s2, hck, hcache, -, httl2, -, -, -, -⟩ := checkMemoryUsage_benign hb1
  rw [get_eq_of_check_ok k hck]
  unfold getLocked
  rw [hcache, httl2, cleanupExpired_ttl]
  rcases cleanupExpired_cache_cases now s with h | h <;> rw [h]
  · rw [hl]
    by_cases hf : now - ts ≤ s.ttl_seconds
    · have hf' : now ≤ s.ttl_seconds + ts := by linarith
      simp [hf, hf']
    · have hf' : ¬ now ≤ s.ttl_seconds + ts := fun hh => hf (by linarith)
      simp [hf, hf']
  · rw [lookupEntry_filter _ hnd, hl]
    by_cases hf : now - ts ≤ s.ttl_seconds
    · have hf' : now ≤ s.ttl_seconds + ts := by linarith
      simp [hf, hf']
    · have hf' : ¬ now ≤ s.ttl_seconds + ts := fun hh => hf (by linarith)
      simp [hf, hf']

theorem get_snd_of_check_error {now : ℚ} {mem : Option ℚ} {s : HistoricalQuoteCache}
    {e : Unit} (k : Key)
    (hck : checkMemoryUsage now mem (cleanupExpired now s) = .error e) :
    (HistoricalQuoteCache.get now mem k s).2 = cleanupExpired now s := by
  rw [get_eq_of_check_error k hck]

theorem set_snd_of_check_error {now : ℚ} {mem : Option ℚ} {s : HistoricalQuoteCache}
    {e : Unit} (k : Key) (v : PyVal)
    (hck : checkMemoryUsage now mem (cleanupExpired now s) = .error e) :
    (HistoricalQuoteCache.set now mem k v s).2 = cleanupExpired now s := by
  rw [set_eq_of_check_error k v hck]

/-! ## Claim C1: the TTL guarantee -/

/-- **C1** (TTL guarantee): on a well-formed cache with positive capacity,
if `set` stores `(k, v)` at time `T` (with a benign memory check), then a
`get` of `k` at any time strictly after `T + ttlSeconds` (with a benign
memory check) reports the key absent (returns `None`), and a `get` at any
time strictly before `T + ttlSeconds`, with no intervening `set` or `clear`,
returns the original value — so `get` never serves an entry older than
`ttlSeconds`. -/
theorem ttl_guarantee (s : HistoricalQuoteCache) (k : Key) (v : PyVal)
    (T tg : ℚ) (memS memG : Option ℚ)
    (hnd : (keysOf s.cache).Nodup) (hmax : 1 ≤ s.maxsize)
    (hbS : memBenignB T memS s = true)
    (hbG : memBenignB tg memG (HistoricalQuoteCache.set T memS k v s).2 = true) :
    (T + s.ttl_seconds < tg →
      (HistoricalQuoteCache.get tg memG k
          (HistoricalQuoteCache.set T memS k v s).2).1 = .ok none) ∧
    (tg < T + s.ttl_seconds →
      (HistoricalQuoteCache.get tg memG k
          (HistoricalQuoteCache.set T memS k v s).2).1 = .ok v) := by
  obtain ⟨hl, hnd1, httl⟩ := set_benign_lookup hnd hmax hbS
  have hmain := get_benign_of_lookup hnd1 hbG hl
  rw [httl] at hmain
  refine ⟨fun h => ?_, fun h => ?_⟩
  · rw [hmain, if_neg (by linarith)]
  · rw [hmain, if_pos (by linarith)]

/-- Witness for `ttl_guarantee` at a concrete instance: capacity 2, TTL 100,
value stored at time 0 under key 0, read back at time 50 (present with the
original value) and at time 150 (absent). -/
theorem ttl_guarantee_witness :
    (keysOf (HistoricalQuoteCache.mkState 2 100 0).cache).Nodup ∧
    memBenignB 0 none (HistoricalQuoteCache.mkState 2 100 0) = true ∧
    (HistoricalQuoteCache.get 150 (some 50) 0
        (HistoricalQuoteCache.set 0 none 0 (some 7)
          (HistoricalQuoteCache.mkState 2 100 0)).2).1 = .ok none ∧
    (HistoricalQuoteCache.get 50 (some 50) 0
        (HistoricalQuoteCache.set 0 none 0 (some 7)
          (HistoricalQuoteCache.mkState 2 100 0)).2).1 = .ok (some 7) :=
  ⟨by simp [keysOf, HistoricalQuoteCache.mkState],
   by norm_num [memBenignB, HistoricalQuoteCache.mkState],
   (ttl_guarantee (HistoricalQuoteCache.mkState 2 100 0) 0 (some 7) 0 150 none
      (some 50) (by simp [keysOf, HistoricalQuoteCache.mkState])
      (by norm_num [HistoricalQuoteCache.mkState])
      (by norm_num [memBenignB, HistoricalQuoteCache.mkState])
      (by norm_num [memBenignB, HistoricalQuoteCache.set, HistoricalQuoteCache.mkState,
        cleanupExpired, checkMemoryUsage, setLocked, dictAssign])).1
      (by norm_num [HistoricalQuoteCache.mkState]),
   (ttl_guarantee (HistoricalQuoteCache.mkState 2 100 0) 0 (some 7) 0 50 none
      (some 50) (by simp [keysOf, HistoricalQuoteCache.mkState])
      (by norm_num [HistoricalQuoteCache.mkState])
      (by norm_num [memBenignB, HistoricalQuoteCache.mkState])
      (by norm_num [memBenignB, HistoricalQuoteCache.set, HistoricalQuoteCache.mkState,
        cleanupExpired, checkMemoryUsage, setLocked, dictAssign])).2
      (by norm_num [HistoricalQuoteCache.mkState])⟩

/-! ## Claim C2: the capacity invariant -/

theorem length_reduceCacheSize_le (c : List Entry) :
    (reduceCacheSize c).length ≤ c.length := by
  unfold reduceCacheSize
  exact (List.drop_sublist _ _).length_le

theorem length_cleanupExpired_le (now : ℚ) (s : HistoricalQuoteCache) :
    (cleanupExpired now s).cache.length ≤ s.cache.length := by
  rcases cleanupExpired_cache_cases now s with h | h
  · rw [h]
  · rw [h]
    exact List.length_filter_le _ _

theorem checkMemoryUsage_ok_bounds {now : ℚ} {mem : Option ℚ}
    {s s2 : HistoricalQuoteCache} (h : checkMemoryUsage now mem s = .ok s2) :
    s2.cache.length ≤ s.cache.length ∧ s2.maxsize = s.maxsize := by
  unfold checkMemoryUsage at h
  split at h
  · cases h
    exact ⟨le_refl _, rfl⟩
  · split at h
    · cases h
    · split at h
      · cases h
        exact ⟨length_reduceCacheSize_le s.cache, rfl⟩
      · cases h
        exact ⟨le_refl _, rfl⟩

theorem length_dictAssign_le (k : Key) (v : PyVal) (ts : ℚ) (c : List Entry) :
    (dictAssign k v ts c).length ≤ c.length + 1 := by
  induction c with
  | nil => simp [dictAssign]
  | cons e es ih =>
    by_cases he : e.1 = k
    · simp [dictAssign, he]
    · simp only [dictAssign, if_neg he, List.length_cons]
      omega

/-! Evaluation lemmas for the locked sections. -/

theorem getLocked_eq_hit {now : ℚ} {k : Key} {s2 : HistoricalQuoteCache}
    {p : PyVal × ℚ} (hl : lookupEntry k s2.cache = some p)
    (hf : now - p.2 ≤ s2.ttl_seconds) :
    getLocked now k s2 =
      (.ok p.1, { s2 with cache := moveToEnd k s2.cache, hits := s2.hits + 1 }) := by
  unfold getLocked
  simp only [hl, if_pos hf]

theorem getLocked_eq_expired {now : ℚ} {k : Key} {s2 : HistoricalQuoteCache}
    {p : PyVal × ℚ} (hl : lookupEntry k s2.cache = some p)
    (hf : ¬ now - p.2 ≤ s2.ttl_seconds) :
    getLocked now k s2 =
      (.ok none, { s2 with cache := eraseKey k s2.cache, misses := s2.misses + 1 }) := by
  unfold getLocked
  simp only [hl, if_neg hf]

theorem getLocked_eq_miss {now : ℚ} {k : Key} {s2 : HistoricalQuoteCache}
    (hl : lookupEntry k s2.cache = none) :
    getLocked now k s2 = (.ok none, { s2 with misses := s2.misses + 1 }) := by
  unfold getLocked
  simp only [hl]

theorem setLocked_eq_full {now : ℚ} {k : Key} {v : PyVal} {s2 : HistoricalQuoteCache}
    {e : Entry} {rest : List Entry}
    (hc : s2.maxsize ≤ (s2.cache.length : Int)) (hcc : s2.cache = e :: rest) :
    setLocked now k v s2 = (.ok (), { s2 with cache := dictAssign k v now rest }) := by
  unfold setLocked
  rw [if_pos hc]
  simp only [hcc]

theorem setLocked_eq_empty {now : ℚ} {k : Key} {v : PyVal} {s2 : HistoricalQuoteCache}
    (hc : s2.maxsize ≤ (s2.cache.length : Int)) (hcc : s2.cache = []) :
    setLocked now k v s2 = (.error (), s2) := by
  unfold setLocked
  rw [if_pos hc]
  simp only [hcc]

theorem setLocked_eq_room {now : ℚ} {k : Key} {v : PyVal} {s2 : HistoricalQuoteCache}
    (hc : ¬ s2.maxsize ≤ (s2.cache.length : Int)) :
    setLocked now k v s2 = (.ok (), { s2 with cache := dictAssign k v now s2.cache }) := by
  unfold setLocked
  rw [if_neg hc]

theorem getLocked_length_le (now : ℚ) (k : Key) (s2 : HistoricalQuoteCache) :
    (getLocked now k s2).2.cache.length ≤ s2.cache.length := by
  cases hl : lookupEntry k s2.cache with
  | none => rw [getLocked_eq_miss hl]
  | some p =>
    by_cases hf : now - p.2 ≤ s2.ttl_seconds
    · rw [getLocked_eq_hit hl hf]
      exact le_of_eq (length_moveToEnd k s2.cache)
    · rw [getLocked_eq_expired hl hf]
      have := length_eraseKey_of_lookup hl
      simp only []
      omega

theorem getLocked_maxsize (now : ℚ) (k : Key) (s2 : HistoricalQuoteCache) :
    (getLocked now k s2).2.maxsize = s2.maxsize := by
  cases hl : lookupEntry k s2.cache with
  | none => rw [getLocked_eq_miss hl]
  | some p =>
    by_cases hf : now - p.2 ≤ s2.ttl_seconds
    · rw [getLocked_eq_hit hl hf]
    · rw [getLocked_eq_expired hl hf]

theorem setLocked_maxsize (now : ℚ) (k : Key) (v : PyVal) (s2 : HistoricalQuoteCache) :
    (setLocked now k v s2).2.maxsize = s2.maxsize := by
  by_cases hc : s2.maxsize ≤ (s2.cache.length : Int)
  · cases hcc : s2.cache with
    | nil => rw [setLocked_eq_empty hc hcc]
    | cons e rest => rw [setLocked_eq_full hc hcc]
  · rw [setLocked_eq_room hc]

theorem setLocked_length {now : ℚ} {k : Key} {v : PyVal} {s2 : HistoricalQuoteCache}
    (hinv : (s2.cache.length : Int) ≤ s2.maxsize) :
    ((setLocked now k v s2).2.cache.length : Int) ≤ s2.maxsize := by
  by_cases hc : s2.maxsize ≤ (s2.cache.length : Int)
  · cases hcc : s2.cache with
    | nil =>
      rw [setLocked_eq_empty hc hcc]
      exact hinv
    | cons e rest =>
      rw [setLocked_eq_full hc hcc]
      have h1 := length_dictAssign_le k v now rest
      have h2 : s2.cache.length = rest.length + 1 := by rw [hcc]; rfl
      have h3 : ((dictAssign k v now rest).length : Int) ≤ (s2.cache.length : Int) := by
        exact_mod_cast (by omega : (dictAssign k v now rest).length ≤ s2.cache.length)
      exact h3.trans hinv
  · rw [setLocked_eq_room hc]
    have h1 := length_dictAssign_le k v now s2.cache
    have h2 : ((dictAssign k v now s2.cache).length : Int) ≤ (s2.cache.length : Int) + 1 := by
      exact_mod_cast h1
    simp only []
    omega

theorem applyOp_capacity {op : CacheOp} {s : HistoricalQuoteCache}
    (hmax : 1 ≤ s.maxsize) (hinv : (s.cache.length : Int) ≤ s.maxsize) :
    ((applyOp op s).cache.length : Int) ≤ s.maxsize ∧
    (applyOp op s).maxsize = s.maxsize := by
  cases op with
  | opClear =>
    refine ⟨?_, rfl⟩
    simp only [applyOp, HistoricalQuoteCache.clear, List.length_nil]
    omega
  | opGet now mem k =>
    show ((HistoricalQuoteCache.get now mem k s).2.cache.length : Int) ≤ s.maxsize ∧
      (HistoricalQuoteCache.get now mem k s).2.maxsize = s.maxsize
    cases hck : checkMemoryUsage now mem (cleanupExpired now s) with
    | error e =>
      rw [get_snd_of_check_error k hck]
      refine ⟨?_, cleanupExpired_maxsize now s⟩
      have h1 : ((cleanupExpired now s).cache.length : Int) ≤ (s.cache.length : Int) := by
        exact_mod_cast length_cleanupExpired_le now s
      omega
    | ok s2 =>
      rw [get_eq_of_check_ok k hck]
      obtain ⟨hl2, hm2⟩ := checkMemoryUsage_ok_bounds hck
      refine ⟨?_, by rw [getLocked_maxsize, hm2, cleanupExpired_maxsize]⟩
      have h1 : (getLocked now k s2).2.cache.length ≤ s.cache.length :=
        le_trans (getLocked_length_le now k s2)
          (le_trans hl2 (length_cleanupExpired_le now s))
      calc ((getLocked now k s2).2.cache.length : Int) ≤ (s.cache.length : Int) := by
            exact_mod_cast h1
        _ ≤ s.maxsize := hinv
  | opSet now mem k v =>
    show ((HistoricalQuoteCache.set now mem k v s).2.cache.length : Int) ≤ s.maxsize ∧
      (HistoricalQuoteCache.set now mem k v s).2.maxsize = s.maxsize
    cases hck : checkMemoryUsage now mem (cleanupExpired now s) with
    | error e =>
      rw [set_snd_of_check_error k v hck]
      refine ⟨?_, cleanupExpired_maxsize now s⟩
      have h1 : ((cleanupExpired now s).cache.length : Int) ≤ (s.cache.length : Int) := by
        exact_mod_cast length_cleanupExpired_le now s
      omega
    | ok s2 =>
      rw [set_eq_of_check_ok k v hck]
      obtain ⟨hl2, hm2⟩ := checkMemoryUsage_ok_bounds hck
      have hmax2 : 1 ≤ s2.maxsize := by
        rw [hm2, cleanupExpired_maxsize]
        exact hmax
      have hinv2 : (s2.cache.length : Int) ≤ s2.maxsize := by
        rw [hm2, cleanupExpired_maxsize]
        have h1 := le_trans hl2 (length_cleanupExpired_le now s)
        calc (s2.cache.length : Int) ≤ (s.cache.length : Int) := by exact_mod_cast h1
          _ ≤ s.maxsize := hinv
      have hb := @setLocked_length now k v s2 hinv2
      refine ⟨?_, by rw [setLocked_maxsize, hm2, cleanupExpired_maxsize]⟩
      rw [hm2, cleanupExpired_maxsize] at hb
      exact hb

theorem runOps_capacity_aux (ops : List CacheOp) :
    ∀ s : HistoricalQuoteCache, 1 ≤ s.maxsize →
      (s.cache.length : Int) ≤ s.maxsize →
      ((runOps s ops).cache.length : Int) ≤ s.maxsize ∧
        (runOps s ops).maxsize = s.maxsize := by
  induction ops with
  | nil => exact fun s _ hinv => ⟨hinv, rfl⟩
  | cons op ops ih =>
    intro s hmax hinv
    obtain ⟨h1, h2⟩ := @applyOp_capacity op s hmax hinv
    obtain ⟨h3, h4⟩ := ih (applyOp op s) (by rw [h2]; exact hmax) (by rw [h2]; exact h1)
    exact ⟨by rw [runOps, ← h2]; exact h3, by rw [runOps, h4, h2]⟩

/-- **C2** (capacity invariant): starting from a freshly constructed cache with
capacity `ms ≥ 1`, after any sequence of `get`/`set`/`clear` operations (at
arbitrary times, with arbitrary memory samples) the number of resident entries
never exceeds `ms`; since every prefix of a sequence is itself a sequence,
the bound holds after each completed operation. -/
theorem capacity_invariant (ms : Int) (ttl t0 : ℚ) (ops : List CacheOp)
    (hms : 1 ≤ ms) :
    ((runOps (HistoricalQuoteCache.mkState ms ttl t0) ops).cache.length : Int) ≤ ms := by
  have h0 : ((HistoricalQuoteCache.mkState ms ttl t0).cache.length : Int) ≤ ms := by
    simp [HistoricalQuoteCache.mkState]
    omega
  exact (runOps_capacity_aux ops (HistoricalQuoteCache.mkState ms ttl t0) hms h0).1

/-- Witness for `capacity_invariant`: capacity 2, three inserts of distinct
keys, a read and a `clear`; the size bound holds at the end. -/
theorem capacity_invariant_witness :
    (1 : Int) ≤ 2 ∧
    ((runOps (HistoricalQuoteCache.mkState 2 100 0)
        [.opSet 0 none 0 (some 1), .opSet 1 none 1 (some 2),
         .opSet 2 none 2 (some 3), .opGet 3 none 1,
         .opClear]).cache.length : Int) ≤ 2 :=
  ⟨by norm_num, capacity_invariant 2 100 0
    [.opSet 0 none 0 (some 1), .opSet 1 none 1 (some 2),
     .opSet 2 none 2 (some 3), .opGet 3 none 1, .opClear] (by norm_num)⟩

/-! ## Lemmas about the rate limiter -/

theorem mem_of_getLast?_eq {α : Type} {l : List α} {a : α}
    (h : l.getLast? = some a) : a ∈ l := by
  induction l with
  | nil => simp at h
  | cons b bs ih =>
    cases bs with
    | nil =>
      simp only [List.getLast?_singleton, Option.some.injEq] at h
      simp [h]
    | cons c cs =>
      rw [List.getLast?_cons_cons] at h
      exact List.mem_cons_of_mem _ (ih h)

theorem pruneOld_eq_nil {now tw : ℚ} {c : List ℚ} (h : pruneOld now tw c = []) :
    ∀ r ∈ c, tw < now - r := by
  induction c with
  | nil =>
    intro r hr
    simp at hr
  | cons r0 rs ih =>
    intro r hr
    by_cases h0 : tw < now - r0
    · rw [pruneOld, if_pos h0] at h
      rcases List.mem_cons.1 hr with rfl | hr'
      · exact h0
      · exact ih h r hr'
    · rw [pruneOld, if_neg h0] at h
      exact absurd h (List.cons_ne_nil _ _)

theorem pruneOld_getLast? {now tw : ℚ} {c : List ℚ}
    (h : pruneOld now tw c ≠ []) :
    (pruneOld now tw c).getLast? = c.getLast? := by
  induction c with
  | nil => simp [pruneOld] at h
  | cons r0 rs ih =>
    by_cases h0 : tw < now - r0
    · rw [pruneOld, if_pos h0] at h ⊢
      rw [ih h]
      have hrs : rs ≠ [] := by
        intro hh
        rw [hh] at h
        simp [pruneOld] at h
      cases rs with
      | nil => exact absurd rfl hrs
      | cons a as => rw [List.getLast?_cons_cons]
    · rw [pruneOld, if_neg h0]

theorem rlAppend_fields (now : ℚ) (rl : RateLimiter) (reqs : List ℚ) (sleep1 : ℚ) :
    (rlAppend now rl reqs sleep1).1.requests =
      reqs ++ [(rlAppend now rl reqs sleep1).2] ∧
    (rlAppend now rl reqs sleep1).1.min_delay = rl.min_delay ∧
    (rlAppend now rl reqs sleep1).1.time_window = rl.time_window ∧
    (rlAppend now rl reqs sleep1).1.max_requests = rl.max_requests :=
  ⟨rfl, rfl, rfl, rfl⟩

theorem rlAppend_spacing {now : ℚ} {rl : RateLimiter} {reqs : List ℚ}
    {sleep1 : ℚ} (hs1 : 0 ≤ sleep1) :
    now ≤ (rlAppend now rl reqs sleep1).2 ∧
    (∀ last, reqs.getLast? = some last →
      rl.min_delay ≤ (rlAppend now rl reqs sleep1).2 - last) := by
  unfold rlAppend
  cases hg : reqs.getLast? with
  | none =>
    refine ⟨by simp only []; linarith, ?_⟩
    intro last hlast
    simp [hg] at hlast
  | some last0 =>
    simp only []
    by_cases hlt : now - last0 < rl.min_delay
    · rw [if_pos hlt]
      refine ⟨by linarith, ?_⟩
      intro last hlast
      cases hlast
      linarith
    · rw [if_neg hlt]
      refine ⟨by linarith, ?_⟩
      intro last hlast
      cases hlast
      push_neg at hlt
      linarith

theorem wait_if_needed_some {rl : RateLimiter} {t T : ℚ} {rl2 : RateLimiter}
    (h : rl.wait_if_needed t = some (rl2, T)) :
    rl2.requests = pruneOld t rl.time_window rl.requests ++ [T] ∧
    rl2.min_delay = rl.min_delay ∧ rl2.time_window = rl.time_window ∧
    rl2.max_requests = rl.max_requests ∧
    t ≤ T ∧
    (∀ last, (pruneOld t rl.time_window rl.requests).getLast? = some last →
      rl.min_delay ≤ T - last) := by
  unfold RateLimiter.wait_if_needed at h
  by_cases hc : rl.max_requests ≤ ((pruneOld t rl.time_window rl.requests).length : Int)
  · rw [if_pos hc] at h
    cases hcc : pruneOld t rl.time_window rl.requests with
    | nil =>
      rw [hcc] at h
      cases h
    | cons r0 rs =>
      rw [hcc] at h
      injection h with h'
      have hs1 : (0:ℚ) ≤ if 0 < r0 + rl.time_window - t then r0 + rl.time_window - t else 0 := by
        split
        · linarith
        · exact le_refl 0
      obtain ⟨hT, hsp⟩ := @rlAppend_spacing t rl (r0 :: rs) _ hs1
      obtain ⟨hreq, hmd, htw, hmr⟩ := rlAppend_fields t rl (r0 :: rs)
        (if 0 < r0 + rl.time_window - t then r0 + rl.time_window - t else 0)
      have h1 := congrArg Prod.fst h'
      have h2 := congrArg Prod.snd h'
      simp only [] at h1 h2
      refine ⟨?_, ?_, ?_, ?_, ?_, ?_⟩
      · rw [← h1, hreq, h2]
      · rw [← h1, hmd]
      · rw [← h1, htw]
      · rw [← h1, hmr]
      · rw [← h2]; exact hT
      · intro last hlast
        rw [← h2]
        exact hsp last hlast
  · rw [if_neg hc] at h
    injection h with h'
    obtain ⟨hT, hsp⟩ := @rlAppend_spacing t rl
      (pruneOld t rl.time_window rl.requests) 0 (le_refl 0)
    obtain ⟨hreq, hmd, htw, hmr⟩ := rlAppend_fields t rl
      (pruneOld t rl.time_window rl.requests) 0
    have h1 := congrArg Prod.fst h'
    have h2 := congrArg Prod.snd h'
    simp only [] at h1 h2
    refine ⟨?_, ?_, ?_, ?_, ?_, ?_⟩
    · rw [← h1, hreq, h2]
    · rw [← h1, hmd]
    · rw [← h1, htw]
    · rw [← h1, hmr]
    · rw [← h2]; exact hT
    · intro last hlast
      rw [← h2]
      exact hsp last hlast

theorem runRL_spacing_aux (entries : List ℚ) :
    ∀ (rl : RateLimiter) (log : List ℚ) (rl' : RateLimiter) (log' : List ℚ),
      rl.min_delay ≤ rl.time_window →
      (rl.requests = [] → log = []) →
      (rl.requests ≠ [] → rl.requests.getLast? = log.getLast?) →
      spacedBy rl.min_delay log →
      runRL rl log entries = some (rl', log') →
      spacedBy rl.min_delay log' := by
  induction entries with
  | nil =>
    intro rl log rl' log' hw h1 h2 hsp h
    rw [runRL] at h
    cases h
    exact hsp
  | cons t ts ih =>
    intro rl log rl' log' hw h1 h2 hsp h
    rw [runRL] at h
    cases hw1 : rl.wait_if_needed t with
    | none =>
      rw [hw1] at h
      cases h
    | some p =>
      obtain ⟨rl2, T⟩ := p
      rw [hw1] at h
      obtain ⟨hreq, hmd, htw, hmr, hT, hsp2⟩ := wait_if_needed_some hw1
      have hstep : spacedBy rl.min_delay (log ++ [T]) := by
        unfold spacedBy at hsp ⊢
        rw [List.chain'_append]
        refine ⟨hsp, List.chain'_singleton T, ?_⟩
        intro x hx y hy
        simp only [List.head?_cons, Option.mem_def, Option.some.injEq] at hy
        subst hy
        rw [Option.mem_def] at hx
        have hlogne : log ≠ [] := by
          intro hh
          rw [hh] at hx
          simp at hx
        have hrlne : rl.requests ≠ [] := fun hh => hlogne (h1 hh)
        have hx' : rl.requests.getLast? = some x := by
          rw [h2 hrlne]
          exact hx
        cases hcc : pruneOld t rl.time_window rl.requests with
        | nil =>
          have hold := pruneOld_eq_nil hcc x (mem_of_getLast?_eq hx')
          linarith
        | cons r0 rs =>
          have hne : pruneOld t rl.time_window rl.requests ≠ [] := by
            rw [hcc]
            exact List.cons_ne_nil _ _
          have hg : (pruneOld t rl.time_window rl.requests).getLast? = some x := by
            rw [pruneOld_getLast? hne]
            exact hx'
          exact hsp2 x hg
      have h1' : rl2.requests = [] → log ++ [T] = [] := by
        intro hh
        rw [hreq] at hh
        simp at hh
      have h2' : rl2.requests ≠ [] → rl2.requests.getLast? = (log ++ [T]).getLast? := by
        intro _
        rw [hreq, List.getLast?_concat, List.getLast?_concat]
      have hw' : rl2.min_delay ≤ rl2.time_window := by
        rw [hmd, htw]
        exact hw
      have hsp' : spacedBy rl2.min_delay (log ++ [T]) := by
        rw [hmd]
        exact hstep
      have hres := ih rl2 (log ++ [T]) rl' log' hw' h1' h2' hsp' h
      rw [hmd] at hres
      exact hres

/-! ## Claims C3 and C4: the rate limiter bounds -/

/-- **C3, counterexample**: with `maxRequests = 2`, `windowSeconds = 1`, the
single-threaded call schedule entering `acquire()` at times
`0, 0, 2/5, 1, 6/5` (each entry no earlier than the previous admission, as
`admissibleB` certifies) produces the admitted-timestamp log
`[0, 1/5, 1, 6/5, 7/5]`; at the observation instant `7/5`, three admitted
timestamps (`1`, `6/5`, `7/5`) lie within the trailing 1-second window,
exceeding `maxRequests = 2` — refuting the claimed invariant. -/
theorem sliding_window_counterexample :
    (runRL (RateLimiter.mkState 2 1) [] [0, 0, 2/5, 1, 6/5]).map Prod.snd =
      some [0, 1/5, 1, 6/5, 7/5] ∧
    admissibleB [0, 0, 2/5, 1, 6/5] [0, 1/5, 1, 6/5, 7/5] = true ∧
    windowCount [0, 1/5, 1, 6/5, 7/5] 1 (7/5) = 3 ∧
    ¬ windowCount [0, 1/5, 1, 6/5, 7/5] 1 (7/5) ≤ 2 := by
  refine ⟨?_, ?_, ?_, ?_⟩
  · norm_num [runRL, RateLimiter.wait_if_needed, rlAppend, pruneOld, RateLimiter.mkState]
  · norm_num [admissibleB]
  · norm_num [windowCount, List.filter]
  · norm_num [windowCount, List.filter]

set_option maxHeartbeats 1000000 in
/-- **C3, amended**: in the default configuration (`maxRequests = 8`,
`windowSeconds = 1.0`, hard-coded 0.2 s minimum delay), 20 back-to-back
`acquire()` calls starting at time 0 produce a log in which the number of
admitted timestamps within any trailing 1-second window never exceeds 8
(the 0.2 s spacing floor enforces this; the window-sleep logic never fires in
this run).  For general configurations the invariant fails, see
`sliding_window_counterexample`. -/
theorem sliding_window_default_config :
    (backToBack 0 (RateLimiter.mkState 8 1) [] 20).map
      (fun p => p.2.all (fun T => decide (windowCount p.2 1 T ≤ 8))) = some true := by
  norm_num [backToBack, RateLimiter.wait_if_needed, rlAppend, pruneOld,
    RateLimiter.mkState, windowCount, List.filter, List.all]

/-- **C4, counterexample**: with `time_window = 1/10 < min_delay = 1/5`, two
`acquire()` calls entered at times `0` and `3/20` (admissible: the second
entry is after the first admission) are admitted at `0` and `3/20`, only
`3/20 < 1/5` apart: pruning removes the only recorded timestamp before the
spacing check, so the minimum-delay floor is not enforced. -/
theorem min_spacing_counterexample :
    (runRL (RateLimiter.mkState 8 (1/10)) [] [0, 3/20]).map Prod.snd =
      some [0, 3/20] ∧
    admissibleB [0, 3/20] [0, 3/20] = true ∧
    ¬ spacedBy (1/5) [0, 3/20] := by
  refine ⟨?_, ?_, ?_⟩
  · norm_num [runRL, RateLimiter.wait_if_needed, rlAppend, pruneOld, RateLimiter.mkState]
  · norm_num [admissibleB]
  · intro h
    unfold spacedBy at h
    rw [List.chain'_cons] at h
    have := h.1
    norm_num at this

/-- **C4, amended** (minimum spacing): provided the hard-coded minimum delay
`0.2 = 1/5` does not exceed `windowSeconds` (true of the production
configuration `windowSeconds = 1.0`), any two consecutively admitted
timestamps produced by a run of `acquire()` calls on a freshly constructed
limiter differ by at least `1/5` second.  When `windowSeconds < 1/5` the
floor can be violated, see `min_spacing_counterexample`. -/
theorem min_spacing_holds (mr : Int) (tw : ℚ) (entries : List ℚ)
    (rl' : RateLimiter) (log : List ℚ)
    (hw : (1/5 : ℚ) ≤ tw)
    (h : runRL (RateLimiter.mkState mr tw) [] entries = some (rl', log)) :
    spacedBy (1/5) log :=
  runRL_spacing_aux entries (RateLimiter.mkState mr tw) [] rl' log
    hw (fun _ => rfl) (fun hne => absurd rfl hne) List.chain'_nil h

/-- Witness for `min_spacing_holds`: two back-to-back calls at the default
configuration are admitted `1/5` apart. -/
theorem min_spacing_holds_witness :
    (1/5 : ℚ) ≤ 1 ∧ spacedBy (1/5) [0, 1/5] :=
  ⟨by norm_num,
   min_spacing_holds 8 1 [0, 0]
     { max_requests := 8, time_window := 1, requests := [0, 1/5], min_delay := 1/5 }
     [0, 1/5] (by norm_num)
     (by norm_num [runRL, RateLimiter.wait_if_needed, rlAppend, pruneOld,
       RateLimiter.mkState])⟩

/-! ## Claims C5, C6, C7: insertion, eviction and promotion order -/

/-- **C5, counterexample**: capacity 3, `set(0, 1)` at time 0, `set(1, 2)` at
time 1, then `set(0, 3)` at time 2 overwriting the resident key 0.  The
timestamp is refreshed, but `OrderedDict` assignment leaves the overwritten
key in place: key 0 stays at the least-recently-used front, and the
most-recently-used position is still held by key 1 — refuting the claim that
a `set` always leaves its key at the most-recently-used position. -/
theorem set_mru_counterexample :
    (runOps (HistoricalQuoteCache.mkState 3 100 0)
        [.opSet 0 none 0 (some 1), .opSet 1 none 1 (some 2),
         .opSet 2 none 0 (some 3)]).cache =
      [(0, some 3, 2), (1, some 2, 1)] ∧
    (runOps (HistoricalQuoteCache.mkState 3 100 0)
        [.opSet 0 none 0 (some 1), .opSet 1 none 1 (some 2),
         .opSet 2 none 0 (some 3)]).cache.getLast?.map (fun e => e.1) ≠ some 0 := by
  have h : (runOps (HistoricalQuoteCache.mkState 3 100 0)
      [.opSet 0 none 0 (some 1), .opSet 1 none 1 (some 2),
       .opSet 2 none 0 (some 3)]).cache = [(0, some 3, 2), (1, some 2, 1)] := by
    norm_num [runOps, applyOp, HistoricalQuoteCache.set, cleanupExpired,
      checkMemoryUsage, HistoricalQuoteCache.mkState, setLocked, dictAssign]
  refine ⟨h, ?_⟩
  rw [h]
  simp

theorem setLocked_lookup_self {k : Key} {v : PyVal} {now : ℚ}
    {s2 : HistoricalQuoteCache} (hmax : 1 ≤ s2.maxsize) :
    lookupEntry k (setLocked now k v s2).2.cache = some (v, now) := by
  by_cases hc : s2.maxsize ≤ (s2.cache.length : Int)
  · cases hcc : s2.cache with
    | nil =>
      exfalso
      rw [hcc] at hc
      simp at hc
      omega
    | cons e rest =>
      rw [setLocked_eq_full hc hcc]
      exact lookupEntry_dictAssign_self k v now rest
  · rw [setLocked_eq_room hc]
    exact lookupEntry_dictAssign_self k v now s2.cache

/-- A concrete two-entry cache at capacity (keys 0 and 1), used as a witness
state. -/
def cacheAB : HistoricalQuoteCache :=
  { maxsize := 2
    ttl_seconds := 100
    cache := [(0, some 1, 0), (1, some 2, 1)]
    last_cleanup := 0
    cleanup_interval := 300
    hits := 0
    misses := 0
    last_memory_check := 0
    memory_check_interval := 60
    memory_warning_threshold := 4/5 }

/-- **C5, amended** (insertion semantics of `set`): with the sweep and memory
check not due and a positive capacity, after `set(k, v)` at time `now` the
entry for `k` holds `(v, now)` (value stored, timestamp refreshed).  Below
capacity, a NEW key is appended at the most-recently-used position while an
EXISTING key keeps its position in the access order (no promotion).  At or
above capacity the least-recently-used front entry is popped first: a key not
among the surviving entries — new, or the evicted front key itself — is
appended at the most-recently-used position, while a key among the survivors
keeps its relative position.  So the claimed unconditional placement at the
most-recently-used position holds exactly for keys absent from the
post-eviction dict. -/
theorem set_insert_semantics (s : HistoricalQuoteCache) (now : ℚ) (mem : Option ℚ)
    (k : Key) (v : PyVal)
    (hq : quiescentB now s = true)
    (hmax : 1 ≤ s.maxsize) :
    lookupEntry k (HistoricalQuoteCache.set now mem k v s).2.cache = some (v, now) ∧
    ((s.cache.length : Int) < s.maxsize →
      (k ∉ keysOf s.cache →
        (HistoricalQuoteCache.set now mem k v s).2.cache.getLast? = some (k, v, now)) ∧
      (k ∈ keysOf s.cache →
        keysOf (HistoricalQuoteCache.set now mem k v s).2.cache = keysOf s.cache)) ∧
    (∀ e0 rest, s.cache = e0 :: rest → s.maxsize ≤ (s.cache.length : Int) →
      (k ∉ keysOf rest →
        (HistoricalQuoteCache.set now mem k v s).2.cache.getLast? = some (k, v, now)) ∧
      (k ∈ keysOf rest →
        keysOf (HistoricalQuoteCache.set now mem k v s).2.cache = keysOf rest)) := by
  rw [set_quiescent mem k v hq]
  refine ⟨setLocked_lookup_self hmax, ?_, ?_⟩
  · intro hlt
    rw [setLocked_eq_room (not_le.2 hlt)]
    exact ⟨fun hk => getLast?_dictAssign_of_not_mem v now hk,
           fun hk => keysOf_dictAssign_of_mem v now hk⟩
  · intro e0 rest hcc hc
    rw [setLocked_eq_full hc hcc]
    exact ⟨fun hk => getLast?_dictAssign_of_not_mem v now hk,
           fun hk => keysOf_dictAssign_of_mem v now hk⟩

/-- Witness for `set_insert_semantics`: a fresh key inserted below capacity
lands at the most-recently-used position with `(v, now)` stored, and — the
at-capacity regime — overwriting the LRU-front key 0 of the full `cacheAB`
pops and re-appends it at the most-recently-used position. -/
theorem set_insert_semantics_witness :
    quiescentB 1 (HistoricalQuoteCache.mkState 3 100 0) = true ∧
    lookupEntry 0 (HistoricalQuoteCache.set 1 none 0 (some 5)
      (HistoricalQuoteCache.mkState 3 100 0)).2.cache = some (some 5, 1) ∧
    (HistoricalQuoteCache.set 1 none 0 (some 5)
      (HistoricalQuoteCache.mkState 3 100 0)).2.cache.getLast? = some (0, some 5, 1) ∧
    (HistoricalQuoteCache.set 2 none 0 (some 9) cacheAB).2.cache.getLast? =
      some (0, some 9, 2) :=
  ⟨by norm_num [quiescentB, HistoricalQuoteCache.mkState],
   (set_insert_semantics (HistoricalQuoteCache.mkState 3 100 0) 1 none 0 (some 5)
     (by norm_num [quiescentB, HistoricalQuoteCache.mkState])
     (by norm_num [HistoricalQuoteCache.mkState])).1,
   (((set_insert_semantics (HistoricalQuoteCache.mkState 3 100 0) 1 none 0 (some 5)
     (by norm_num [quiescentB, HistoricalQuoteCache.mkState])
     (by norm_num [HistoricalQuoteCache.mkState])).2.1
     (by norm_num [HistoricalQuoteCache.mkState])).1
     (by simp [HistoricalQuoteCache.mkState, keysOf])),
   (((set_insert_semantics cacheAB 2 none 0 (some 9)
     (by norm_num [quiescentB, cacheAB])
     (by norm_num [cacheAB])).2.2
     (0, some 1, 0) [(1, some 2, 1)] rfl (by norm_num [cacheAB])).1
     (by simp [keysOf]))⟩

/-- **C6, counterexample**: capacity 2 with keys 0 and 1 resident (both
unexpired), then `set(1, 3)` overwriting the already-resident key 1.  The
code checks only `len(self.cache) >= self.maxsize` — not whether the key is
new — so it still evicts the least-recently-used entry (key 0), and the
cache shrinks to a single entry.  This refutes the claim that a `set` of a
resident key removes no other entry. -/
theorem eviction_frame_counterexample :
    (runOps (HistoricalQuoteCache.mkState 2 100 0)
        [.opSet 0 none 0 (some 1), .opSet 1 none 1 (some 2),
         .opSet 2 none 1 (some 3)]).cache = [(1, some 3, 2)] ∧
    (0 : Key) ∉ keysOf (runOps (HistoricalQuoteCache.mkState 2 100 0)
        [.opSet 0 none 0 (some 1), .opSet 1 none 1 (some 2),
         .opSet 2 none 1 (some 3)]).cache := by
  have h : (runOps (HistoricalQuoteCache.mkState 2 100 0)
      [.opSet 0 none 0 (some 1), .opSet 1 none 1 (some 2),
       .opSet 2 none 1 (some 3)]).cache = [(1, some 3, 2)] := by
    norm_num [runOps, applyOp, HistoricalQuoteCache.set, cleanupExpired,
      checkMemoryUsage, HistoricalQuoteCache.mkState, setLocked, dictAssign]
  refine ⟨h, ?_⟩
  rw [h]
  simp [keysOf]

/-- **C6, amended** (eviction frame of `set`): with the sweep and memory check
not due, on a well-formed cache: below capacity, `set(k, v)` removes no entry
other than `k`'s own (every other entry survives unchanged); at or above
capacity, `set(k, v)` always evicts exactly the front (least-recently-used)
entry — whether or not `k` is resident — and every other non-`k` entry
survives unchanged. -/
theorem eviction_frame (s : HistoricalQuoteCache) (now : ℚ) (mem : Option ℚ)
    (k : Key) (v : PyVal)
    (hq : quiescentB now s = true)
    (hnd : (keysOf s.cache).Nodup) :
    ((s.cache.length : Int) < s.maxsize →
      ∀ e ∈ s.cache, e.1 ≠ k → e ∈ (HistoricalQuoteCache.set now mem k v s).2.cache) ∧
    (∀ e0 rest, s.cache = e0 :: rest → s.maxsize ≤ (s.cache.length : Int) →
      (e0.1 ≠ k → e0.1 ∉ keysOf (HistoricalQuoteCache.set now mem k v s).2.cache) ∧
      ∀ e ∈ rest, e.1 ≠ k → e ∈ (HistoricalQuoteCache.set now mem k v s).2.cache) := by
  rw [set_quiescent mem k v hq]
  constructor
  · intro hlt e he hne
    rw [setLocked_eq_room (not_le.2 hlt)]
    exact mem_dictAssign_of_ne k v now he hne
  · intro e0 rest hcc hc
    rw [setLocked_eq_full hc hcc]
    have h0 : e0.1 ∉ keysOf rest := by
      rw [hcc, keysOf_cons, List.nodup_cons] at hnd
      exact hnd.1
    constructor
    · intro hne hmem
      by_cases hk : k ∈ keysOf rest
      · rw [keysOf_dictAssign_of_mem v now hk] at hmem
        exact h0 hmem
      · rw [keysOf_dictAssign_of_not_mem v now hk] at hmem
        rcases List.mem_append.1 hmem with h | h
        · exact h0 h
        · simp only [List.mem_singleton] at h
          exact hne h
    · intro e he hne
      exact mem_dictAssign_of_ne k v now he hne

/-- Witness for `eviction_frame`: overwriting resident key 1 in the
at-capacity cache `cacheAB` evicts the least-recently-used key 0. -/
theorem eviction_frame_witness :
    quiescentB 2 cacheAB = true ∧
    (0 : Key) ∉ keysOf (HistoricalQuoteCache.set 2 none 1 (some 3) cacheAB).2.cache :=
  ⟨by norm_num [quiescentB, cacheAB],
   ((eviction_frame cacheAB 2 none 1 (some 3)
       (by norm_num [quiescentB, cacheAB])
       (by simp [cacheAB, keysOf])).2
     (0, some 1, 0) [(1, some 2, 1)] rfl (by norm_num [cacheAB])).1 (by norm_num)⟩

/-- **C7** (LRU promotion on `get`): with the sweep and memory check not due,
a `get` that finds an unexpired entry returns its stored value and moves the
entry (with its stored value and timestamp) to the most-recently-used
position; consequently, in the concrete scenario with capacity 2 — insert
key 0, insert key 1, read key 0 (a hit), insert key 2 — the insertion of
key 2 evicts key 1, not key 0, leaving the key order `[0, 2]`. -/
theorem lru_promotion_on_get (s : HistoricalQuoteCache) (now : ℚ) (mem : Option ℚ)
    (k : Key) (v : PyVal) (ts : ℚ)
    (hq : quiescentB now s = true)
    (hl : lookupEntry k s.cache = some (v, ts))
    (hf : now - ts ≤ s.ttl_seconds) :
    (HistoricalQuoteCache.get now mem k s).1 = .ok v ∧
    (HistoricalQuoteCache.get now mem k s).2.cache.getLast? = some (k, v, ts) ∧
    keysOf (runOps (HistoricalQuoteCache.mkState 2 100 0)
      [.opSet 0 none 0 (some 1), .opSet 1 none 1 (some 2),
       .opGet 2 none 0, .opSet 3 none 2 (some 3)]).cache = [0, 2] := by
  rw [get_quiescent mem k hq, getLocked_eq_hit hl hf]
  refine ⟨rfl, ?_, ?_⟩
  · show (moveToEnd k s.cache).getLast? = some (k, v, ts)
    unfold moveToEnd
    rw [hl]
    exact List.getLast?_concat _
  · norm_num [runOps, applyOp, HistoricalQuoteCache.get, HistoricalQuoteCache.set,
      cleanupExpired, checkMemoryUsage, HistoricalQuoteCache.mkState, getLocked,
      setLocked, dictAssign, lookupEntry, moveToEnd, eraseKey, keysOf]

/-- Witness for `lru_promotion_on_get`: reading resident key 0 of `cacheAB`
returns its value and moves it to the most-recently-used position. -/
theorem lru_promotion_on_get_witness :
    quiescentB 2 cacheAB = true ∧
    (HistoricalQuoteCache.get 2 none 0 cacheAB).1 = .ok (some 1) ∧
    (HistoricalQuoteCache.get 2 none 0 cacheAB).2.cache.getLast? =
      some (0, some 1, 0) :=
  ⟨by norm_num [quiescentB, cacheAB],
   (lru_promotion_on_get cacheAB 2 none 0 (some 1) 0
     (by norm_num [quiescentB, cacheAB])
     (by norm_num [cacheAB, lookupEntry])
     (by norm_num [cacheAB])).1,
   (lru_promotion_on_get cacheAB 2 none 0 (some 1) 0
     (by norm_num [quiescentB, cacheAB])
     (by norm_num [cacheAB, lookupEntry])
     (by norm_num [cacheAB])).2.1⟩

/-! ## Claim C8: propagation of memory-sampling failure -/

theorem cleanupExpired_lmc (now : ℚ) (s : HistoricalQuoteCache) :
    (cleanupExpired now s).last_memory_check = s.last_memory_check := by
  rcases cleanupExpired_eq now s with h | h <;> rw [h]

theorem cleanupExpired_mci (now : ℚ) (s : HistoricalQuoteCache) :
    (cleanupExpired now s).memory_check_interval = s.memory_check_interval := by
  rcases cleanupExpired_eq now s with h | h <;> rw [h]

theorem cleanupExpired_hits (now : ℚ) (s : HistoricalQuoteCache) :
    (cleanupExpired now s).hits = s.hits := by
  rcases cleanupExpired_eq now s with h | h <;> rw [h]

theorem cleanupExpired_misses (now : ℚ) (s : HistoricalQuoteCache) :
    (cleanupExpired now s).misses = s.misses := by
  rcases cleanupExpired_eq now s with h | h <;> rw [h]

/-- **C8, counterexample**: on a freshly constructed cache, a `get` (or `set`)
at time 61 — when the memory check is due — whose `psutil` sampling fails
raises the exception to the caller (`Except.error`) instead of completing
normally with the shrink step skipped, refuting the claimed non-propagation:
`_check_memory_usage` has no `try/except` around the sampling calls. -/
theorem memcheck_failure_counterexample :
    (HistoricalQuoteCache.get 61 none 0 (HistoricalQuoteCache.mkState 2 100 0)).1 =
      .error () ∧
    (HistoricalQuoteCache.set 61 none 0 (some 1)
      (HistoricalQuoteCache.mkState 2 100 0)).1 = .error () := by
  constructor <;>
    norm_num [HistoricalQuoteCache.get, HistoricalQuoteCache.set, cleanupExpired,
      checkMemoryUsage, HistoricalQuoteCache.mkState]

/-- **C8, amended**: whenever the memory check is due and the memory sampling
fails, `get` and `set` abort with the propagated exception before reaching
the locked section: the caller sees the error, and the cache state is exactly
the one left by the expiry sweep — the hit/miss counters are unchanged and no
entry is touched beyond the sweep. -/
theorem memcheck_failure_propagates (s : HistoricalQuoteCache) (k : Key)
    (v : PyVal) (now : ℚ)
    (hdue : s.memory_check_interval ≤ now - s.last_memory_check) :
    (HistoricalQuoteCache.get now none k s).1 = .error () ∧
    (HistoricalQuoteCache.get now none k s).2 = cleanupExpired now s ∧
    (HistoricalQuoteCache.set now none k v s).1 = .error () ∧
    (HistoricalQuoteCache.set now none k v s).2 = cleanupExpired now s ∧
    (HistoricalQuoteCache.get now none k s).2.hits = s.hits ∧
    (HistoricalQuoteCache.get now none k s).2.misses = s.misses := by
  have hck : checkMemoryUsage now none (cleanupExpired now s) = .error () := by
    unfold checkMemoryUsage
    rw [cleanupExpired_lmc, cleanupExpired_mci, if_neg (not_lt.2 hdue)]
  refine ⟨?_, get_snd_of_check_error k hck, ?_, set_snd_of_check_error k v hck, ?_, ?_⟩
  · rw [get_eq_of_check_error k hck]
  · rw [set_eq_of_check_error k v hck]
  · rw [get_snd_of_check_error k hck, cleanupExpired_hits]
  · rw [get_snd_of_check_error k hck, cleanupExpired_misses]

/-- Witness for `memcheck_failure_propagates` on a fresh cache at time 100. -/
theorem memcheck_failure_propagates_witness :
    (HistoricalQuoteCache.mkState 5 50 0).memory_check_interval ≤
      100 - (HistoricalQuoteCache.mkState 5 50 0).last_memory_check ∧
    (HistoricalQuoteCache.get 100 none 3 (HistoricalQuoteCache.mkState 5 50 0)).1 =
      .error () ∧
    (HistoricalQuoteCache.get 100 none 3 (HistoricalQuoteCache.mkState 5 50 0)).2.misses =
      (HistoricalQuoteCache.mkState 5 50 0).misses :=
  ⟨by norm_num [HistoricalQuoteCache.mkState],
   (memcheck_failure_propagates (HistoricalQuoteCache.mkState 5 50 0) 3 none 100
     (by norm_num [HistoricalQuoteCache.mkState])).1,
   (memcheck_failure_propagates (HistoricalQuoteCache.mkState 5 50 0) 3 none 100
     (by norm_num [HistoricalQuoteCache.mkState])).2.2.2.2.2⟩

/-! ## Claim C9: construction-time configuration validation -/

/-- **C9, counterexample**: construction with non-positive configuration
values succeeds — `HistoricalQuoteCache(0, 0)` and `RateLimiter(0, 0)` both
return working instances recording the given bounds, refuting the claim that
the constructors refuse to initialize: neither `__init__` contains any
validation. -/
theorem constructor_validation_counterexample :
    HistoricalQuoteCache.init 0 0 0 = .ok (HistoricalQuoteCache.mkState 0 0 0) ∧
    RateLimiter.init 0 0 = .ok (RateLimiter.mkState 0 0) :=
  ⟨rfl, rfl⟩

/-- **C9, amended**: the constructors perform no validation whatsoever: for
every value of `maxSize`, `ttlSeconds`, `maxRequests` and `windowSeconds` —
non-positive included — construction succeeds and the instance records the
values exactly as given. -/
theorem constructors_never_fail :
    ∀ (m : Int) (t t0 : ℚ) (mr : Int) (tw : ℚ),
      HistoricalQuoteCache.init m t t0 = .ok (HistoricalQuoteCache.mkState m t t0) ∧
      (HistoricalQuoteCache.mkState m t t0).maxsize = m ∧
      (HistoricalQuoteCache.mkState m t t0).ttl_seconds = t ∧
      RateLimiter.init mr tw = .ok (RateLimiter.mkState mr tw) ∧
      (RateLimiter.mkState mr tw).max_requests = mr ∧
      (RateLimiter.mkState mr tw).time_window = tw :=
  fun _ _ _ _ _ => ⟨rfl, rfl, rfl, rfl, rfl, rfl⟩

/-! ## Claim C10: a stored `None` is indistinguishable from absence -/

theorem setLocked_counters (now : ℚ) (k : Key) (v : PyVal)
    (s2 : HistoricalQuoteCache) :
    (setLocked now k v s2).2.hits = s2.hits ∧
    (setLocked now k v s2).2.misses = s2.misses ∧
    (setLocked now k v s2).2.last_cleanup = s2.last_cleanup ∧
    (setLocked now k v s2).2.cleanup_interval = s2.cleanup_interval ∧
    (setLocked now k v s2).2.last_memory_check = s2.last_memory_check ∧
    (setLocked now k v s2).2.memory_check_interval = s2.memory_check_interval ∧
    (setLocked now k v s2).2.ttl_seconds = s2.ttl_seconds := by
  by_cases hc : s2.maxsize ≤ (s2.cache.length : Int)
  · cases hcc : s2.cache with
    | nil =>
      rw [setLocked_eq_empty hc hcc]
      exact ⟨rfl, rfl, rfl, rfl, rfl, rfl, rfl⟩
    | cons e rest =>
      rw [setLocked_eq_full hc hcc]
      exact ⟨rfl, rfl, rfl, rfl, rfl, rfl, rfl⟩
  · rw [setLocked_eq_room hc]
    exact ⟨rfl, rfl, rfl, rfl, rfl, rfl, rfl⟩

/-- **C10** (stored `None` is indistinguishable from absence at the `get`
interface): with the sweep and memory check not due, (a) after
`set(k, None)` at time `T`, a `get(k)` within the TTL returns `None` — the
same result as for an absent key — and increments the hit counter, leaving
the miss counter unchanged; (b) a `get` of a key that is not resident also
returns `None`, incrementing the miss counter and leaving the hit counter
unchanged.  The only observable difference is which counter moves. -/
theorem stored_none_indistinguishable (s : HistoricalQuoteCache) (k : Key)
    (T tg : ℚ) (memS memG : Option ℚ)
    (hmax : 1 ≤ s.maxsize) :
    (quiescentB T s = true →
      quiescentB tg (HistoricalQuoteCache.set T memS k none s).2 = true →
      tg - T ≤ s.ttl_seconds →
      (HistoricalQuoteCache.get tg memG k
          (HistoricalQuoteCache.set T memS k none s).2).1 = .ok none ∧
      (HistoricalQuoteCache.get tg memG k
          (HistoricalQuoteCache.set T memS k none s).2).2.hits = s.hits + 1 ∧
      (HistoricalQuoteCache.get tg memG k
          (HistoricalQuoteCache.set T memS k none s).2).2.misses = s.misses) ∧
    (quiescentB tg s = true → k ∉ keysOf s.cache →
      (HistoricalQuoteCache.get tg memG k s).1 = .ok none ∧
      (HistoricalQuoteCache.get tg memG k s).2.hits = s.hits ∧
      (HistoricalQuoteCache.get tg memG k s).2.misses = s.misses + 1) := by
  constructor
  · intro hq1 hq2 hfresh
    rw [set_quiescent memS k none hq1] at hq2 ⊢
    obtain ⟨hh, hm, -, -, -, -, httl⟩ := setLocked_counters T k none s
    have hl : lookupEntry k (setLocked T k none s).2.cache = some (none, T) :=
      setLocked_lookup_self hmax
    have hfresh' : tg - T ≤ (setLocked T k none s).2.ttl_seconds := by
      rw [httl]
      exact hfresh
    rw [get_quiescent memG k hq2, getLocked_eq_hit hl hfresh']
    refine ⟨rfl, ?_, ?_⟩
    · simp only [hh]
    · simp only [hm]
  · intro hq hnm
    rw [get_quiescent memG k hq,
      getLocked_eq_miss (lookupEntry_eq_none_of_not_mem hnm)]
    exact ⟨rfl, rfl, rfl⟩

/-- Witness for `stored_none_indistinguishable`: key 0 set to `None` at time 0
reads back as `None` at time 1 with a hit counted; the never-set key 5 reads
as `None` with a miss counted. -/
theorem stored_none_indistinguishable_witness :
    (1 : Int) ≤ (HistoricalQuoteCache.mkState 2 100 0).maxsize ∧
    (HistoricalQuoteCache.get 1 none 0
        (HistoricalQuoteCache.set 0 none 0 none
          (HistoricalQuoteCache.mkState 2 100 0)).2).1 = .ok none ∧
    (HistoricalQuoteCache.get 1 none 0
        (HistoricalQuoteCache.set 0 none 0 none
          (HistoricalQuoteCache.mkState 2 100 0)).2).2.hits =
      (HistoricalQuoteCache.mkState 2 100 0).hits + 1 ∧
    (HistoricalQuoteCache.get 1 none 5 (HistoricalQuoteCache.mkState 2 100 0)).1 =
      .ok none ∧
    (HistoricalQuoteCache.get 1 none 5 (HistoricalQuoteCache.mkState 2 100 0)).2.misses =
      (HistoricalQuoteCache.mkState 2 100 0).misses + 1 :=
  ⟨by norm_num [HistoricalQuoteCache.mkState],
   ((stored_none_indistinguishable (HistoricalQuoteCache.mkState 2 100 0) 0 0 1
       none none (by norm_num [HistoricalQuoteCache.mkState])).1
     (by norm_num [quiescentB, HistoricalQuoteCache.mkState])
     (by norm_num [quiescentB, HistoricalQuoteCache.set, cleanupExpired,
       checkMemoryUsage, setLocked, dictAssign, HistoricalQuoteCache.mkState])
     (by norm_num [HistoricalQuoteCache.mkState])).1,
   ((stored_none_indistinguishable (HistoricalQuoteCache.mkState 2 100 0) 0 0 1
       none none (by norm_num [HistoricalQuoteCache.mkState])).1
     (by norm_num [quiescentB, HistoricalQuoteCache.mkState])
     (by norm_num [quiescentB, HistoricalQuoteCache.set, cleanupExpired,
       checkMemoryUsage, setLocked, dictAssign, HistoricalQuoteCache.mkState])
     (by norm_num [HistoricalQuoteCache.mkState])).2.1,
   ((stored_none_indistinguishable (HistoricalQuoteCache.mkState 2 100 0) 5 0 1
       none none (by norm_num [HistoricalQuoteCache.mkState])).2
     (by norm_num [quiescentB, HistoricalQuoteCache.mkState])
     (by simp [HistoricalQuoteCache.mkState, keysOf])).1,
   ((stored_none_indistinguishable (HistoricalQuoteCache.mkState 2 100 0) 5 0 1
       none none (by norm_num [HistoricalQuoteCache.mkState])).2
     (by norm_num [quiescentB, HistoricalQuoteCache.mkState])
     (by simp [HistoricalQuoteCache.mkState, keysOf])).2.2⟩
